import Mathlib

/-!
Verification of the Repo-Manager application core (src/src/App.tsx) against its
natural-language specification.  The data model and the operations below are a
shallow embedding of the TypeScript source: pure functions become Lean
functions, the React state updates become explicit state passing, and the
remote API is a parameter (the outcome each remote call would produce).
Machine integers of the source are JavaScript numbers used only as ids,
timestamps and counters, so they are modelled as Nat.
-/

/-- Per-item deletion status, from the deleteStatus union type in App.tsx
(pending | success | error); the absent field is modelled as none at the
Option layer. -/
inductive DeleteStatus where
  | pending
  | success
  | error
deriving DecidableEq, Repr

/-- The Repository interface of App.tsx.  The source field named private is a
Lean keyword and is rendered isPrivate; created_at and updated_at are ISO date
strings in the source, compared via Date.getTime, so they are modelled
directly as numeric timestamps. -/
structure Repository where
  id : Nat
  name : String
  html_url : String
  isPrivate : Bool
  description : Option String
  created_at : Nat
  updated_at : Nat
  language : Option String
  stargazers_count : Nat
  forks_count : Nat
  selected : Bool := false
  deleteStatus : Option DeleteStatus := none
  errorMessage : Option String := none
deriving DecidableEq, Repr

/-- An item as returned by the remote listing endpoint (GET /user/repos):
the same fields as Repository but without the UI-local selected,
deleteStatus and errorMessage fields, which the response objects do not
carry. -/
structure RawRepo where
  id : Nat
  name : String
  html_url : String
  isPrivate : Bool
  description : Option String
  created_at : Nat
  updated_at : Nat
  language : Option String
  stargazers_count : Nat
  forks_count : Nat
deriving DecidableEq, Repr

/-- Spread of a fetched item into the catalog entry created by
fetchRepositories: { ...repo, selected: false }; the status fields are absent
on the response object, hence none. -/
def rawToRepository (r : RawRepo) : Repository :=
  { id := r.id, name := r.name, html_url := r.html_url, isPrivate := r.isPrivate,
    description := r.description, created_at := r.created_at, updated_at := r.updated_at,
    language := r.language, stargazers_count := r.stargazers_count,
    forks_count := r.forks_count,
    selected := false, deleteStatus := none, errorMessage := none }

/-- The sortBy union type of the filters state in App.tsx. -/
inductive SortBy where
  | updated
  | created
  | name
  | stars
  | forks
deriving DecidableEq, Repr

/-- The filters state object of App.tsx.  The source fields named private and
public are Lean keywords and are rendered filterPrivate and filterPublic; an
empty language string means no language filter, as in the source. -/
structure Filters where
  filterPrivate : Bool
  filterPublic : Bool
  sortBy : SortBy
  language : String
deriving DecidableEq, Repr

/-- JavaScript String.prototype.toLowerCase, modelled per character (the
source data is ASCII repository metadata). -/
def lowerStr (s : String) : String :=
  String.mk (s.data.map Char.toLower)

/-- JavaScript String.prototype.includes: the needle occurs as a contiguous
substring of the haystack. -/
def stringIncludes (hay needle : String) : Bool :=
  decide (needle.data <:+: hay.data)

/-- The search predicate of filterRepositories: the name matches
case-insensitively, or the description matches via optional chaining, which
yields no match when the description is null. -/
def matchesSearch (searchTerm : String) (r : Repository) : Bool :=
  stringIncludes (lowerStr r.name) (lowerStr searchTerm) ||
    (match r.description with
     | some d => stringIncludes (lowerStr d) (lowerStr searchTerm)
     | none => false)

/-- The comparator passed to Array.prototype.sort in filterRepositories, as
an order relation: sortRel k a b holds exactly when the comparator returns a
non-positive number on (a, b).  The name case uses localeCompare in the
source, modelled as the lexicographic string order; the date cases compare
the Date.getTime values descending; the counter cases compare descending. -/
def sortRel (k : SortBy) : Repository → Repository → Prop :=
  match k with
  | .name => fun a b => a.name.data ≤ b.name.data
  | .created => fun a b => b.created_at ≤ a.created_at
  | .updated => fun a b => b.updated_at ≤ a.updated_at
  | .stars => fun a b => b.stargazers_count ≤ a.stargazers_count
  | .forks => fun a b => b.forks_count ≤ a.forks_count

instance sortRelDecidable : (k : SortBy) → DecidableRel (sortRel k)
  | .name => fun a b => inferInstanceAs (Decidable (a.name.data ≤ b.name.data))
  | .created => fun a b => inferInstanceAs (Decidable (b.created_at ≤ a.created_at))
  | .updated => fun a b => inferInstanceAs (Decidable (b.updated_at ≤ a.updated_at))
  | .stars => fun a b => inferInstanceAs (Decidable (b.stargazers_count ≤ a.stargazers_count))
  | .forks => fun a b => inferInstanceAs (Decidable (b.forks_count ≤ a.forks_count))

/-- The three filtering stages of filterRepositories before the sort: the
truthiness test on searchTerm and on filters.language is emptiness of the
string, as in JavaScript. -/
def filteredBeforeSort (repositories : List Repository) (searchTerm : String)
    (filters : Filters) : List Repository :=
  let filtered := repositories
  let filtered :=
    if searchTerm ≠ "" then filtered.filter (matchesSearch searchTerm) else filtered
  let filtered :=
    if filters.filterPrivate && !filters.filterPublic then
      filtered.filter (fun r => r.isPrivate)
    else if filters.filterPublic && !filters.filterPrivate then
      filtered.filter (fun r => !r.isPrivate)
    else filtered
  let filtered :=
    if filters.language ≠ "" then
      filtered.filter (fun r => r.language = some filters.language)
    else filtered
  filtered

/-- The filterRepositories function of App.tsx as a pure function of its three
reactive inputs: filtering stages, then the sort.  Array.prototype.sort is
stable per the ECMAScript specification, so it is modelled by a stable sort
(insertionSort) under the comparator relation. -/
def filterRepositories (repositories : List Repository) (searchTerm : String)
    (filters : Filters) : List Repository :=
  (filteredBeforeSort repositories searchTerm filters).insertionSort (sortRel filters.sortBy)

/-- Body of the GET /user response together with the x-oauth-scopes response
header (absent header modelled as none). -/
structure UserResponse where
  scopes : Option String
  login : String
deriving DecidableEq, Repr

/-- Outcome of a remote HTTP request: a successful response, or an error
carrying the err.status field and the err.message (respectively the
err.response.data.message for delete calls), each possibly absent. -/
inductive HttpResult (α : Type) where
  | ok (a : α)
  | err (status : Option Nat) (message : Option String)
deriving DecidableEq, Repr

/-- JavaScript short-circuit m || fallback on an optional string: the
fallback is taken when the string is absent or empty (falsy). -/
def messageOr (m : Option String) (fallback : String) : String :=
  match m with
  | some s => if s = "" then fallback else s
  | none => fallback

/-- JavaScript String.prototype.split on a one-character separator, on the
character list of the string; split of the empty string yields one empty
group, as in JavaScript. -/
def splitCharsOn (sep : Char) : List Char → List (List Char)
  | [] => [[]]
  | c :: cs =>
    let rest := splitCharsOn sep cs
    if c = sep then
      [] :: rest
    else
      match rest with
      | [] => [[c]]
      | g :: gs => (c :: g) :: gs

/-- JavaScript String.prototype.trim: leading and trailing whitespace
removed. -/
def trimChars (l : List Char) : List Char :=
  ((l.dropWhile Char.isWhitespace).reverse.dropWhile Char.isWhitespace).reverse

/-- The verifyTokenPermissions function of App.tsx, as a function of the
outcome of the GET /user request.  On a successful response the
x-oauth-scopes header (empty when absent) is split on commas, trimmed, and
searched for delete_repo; the missing-scope error thrown inside the try block
passes through the catch unchanged because its message is non-empty and its
status is absent.  A failed request maps status 401 to the invalid-token
message and anything else to err.message with a generic fallback. -/
def verifyTokenPermissions (resp : HttpResult UserResponse) : Except String String :=
  match resp with
  | .ok u =>
    let scopes := u.scopes.getD ""
    let hasDeleteScope :=
      ((splitCharsOn ',' scopes.data).map (fun g => String.mk (trimChars g))).contains
        "delete_repo"
    if hasDeleteScope then
      .ok u.login
    else
      .error "Token does not have delete_repo scope. Please generate a new token with the delete_repo permission."
  | .err status message =>
    if status = some 401 then
      .error "Invalid token. Please check your token and try again."
    else
      .error (messageOr message "Failed to verify token permissions. Please ensure your token is valid and has the delete_repo scope.")

/-- The fetchRepositories function of App.tsx, as a function of the outcomes
the two remote requests of this run would produce.  The result is the new
repositories state together with the error banner text (empty when cleared):
on any failure the catch clause clears the catalog and surfaces the message;
on success each response item is spread with selected set to false. -/
def fetchRepositories (userResp : HttpResult UserResponse)
    (listing : Except (Option String) (List RawRepo)) : List Repository × String :=
  match verifyTokenPermissions userResp with
  | .error m => ([], m)
  | .ok _username =>
    match listing with
    | .error m => ([], messageOr m "Failed to fetch repositories. Please check your token.")
    | .ok raws => (raws.map rawToRepository, "")

/-- Result of the handleDeleteSelected entry point: the early-return error
path, or the confirmation dialog being opened. -/
inductive HandleOutcome where
  | nothingSelected (message : String)
  | confirmationOpened
deriving DecidableEq, Repr

/-- Remote calls performed by a batch run, in the order they are issued; a
delete call is recorded as its start (the request being sent) and its end
(the awaited response, success or failure), so that in-flight concurrency is
visible in the event list. -/
inductive Event where
  | verifyCall
  | deleteStart (owner : String) (name : String)
  | deleteEnd (owner : String) (name : String)
  | refetchCall
deriving DecidableEq, Repr

/-- The handleDeleteSelected function of App.tsx: with an empty selection it
surfaces the nothing-selected error and returns, touching no repository state
and issuing no remote call; otherwise it opens the confirmation dialog.  The
result is the outcome, the (unchanged) repositories state, and the remote
calls issued (none on either path). -/
def handleDeleteSelected (repos : List Repository) :
    HandleOutcome × List Repository × List Event :=
  if (repos.filter (fun r => r.selected)).length = 0 then
    (.nothingSelected "Please select repositories to delete", repos, [])
  else
    (.confirmationOpened, repos, [])

/-- The state update at the start of confirmDelete that marks every selected
item pending in a single setRepositories call. -/
def markPending (repos : List Repository) : List Repository :=
  repos.map (fun repo =>
    if repo.selected then { repo with deleteStatus := some .pending } else repo)

/-- The per-item catalog update of the deletion loop: the entry matching the
processed item by id receives deleteStatus success when its delete call
succeeded, or deleteStatus error with err.response.data.message (generic
fallback when absent or empty) when it failed; every other entry is
untouched. -/
def applyStatus (del : String → Except (Option String) Unit) (r e : Repository) :
    Repository :=
  if e.id = r.id then
    match del r.name with
    | .ok _ => { e with deleteStatus := some .success }
    | .error m =>
      { e with deleteStatus := some .error,
               errorMessage := some (messageOr m "Unknown error occurred") }
  else e

/-- The sequential deletion loop of confirmDelete over the captured selected
list: each item issues one DELETE call (recorded as a start and an end event,
the response being awaited before the loop advances), updates the catalog by
id, and bumps the matching counter; a failure therefore never aborts the
loop.  Arguments: acting user, remote delete outcomes keyed by repository
name, items still to process, current catalog, current counters. -/
def processSelected (username : String) (del : String → Except (Option String) Unit) :
    List Repository → List Repository → Nat → Nat →
    List Repository × Nat × Nat × List Event
  | [], repos, sc, fc => (repos, sc, fc, [])
  | r :: rest, repos, sc, fc =>
    match del r.name with
    | .ok _ =>
      let out := processSelected username del rest
        (repos.map (applyStatus del r)) (sc + 1) fc
      (out.1, out.2.1, out.2.2.1,
        Event.deleteStart username r.name :: Event.deleteEnd username r.name :: out.2.2.2)
    | .error _ =>
      let out := processSelected username del rest
        (repos.map (applyStatus del r)) sc (fc + 1)
      (out.1, out.2.1, out.2.2.1,
        Event.deleteStart username r.name :: Event.deleteEnd username r.name :: out.2.2.2)

/-- Final state of one confirmDelete run: the repositories state, the two
counters, the error and success banner texts, the events issued in order,
and whether the full-catalog refetch ran. -/
structure BatchResult where
  repositories : List Repository
  successCount : Nat
  failureCount : Nat
  error : String
  success : String
  events : List Event
  didRefetch : Bool
deriving DecidableEq, Repr

/-- The confirmDelete function of App.tsx, as a function of the current
repositories state and of the outcomes the remote calls of this run would
produce.  It captures the selected list, re-verifies the token (one
verifyCall event); a verification failure aborts with no further calls and no
catalog change.  Otherwise all selected items are marked pending, the loop of
processSelected runs, and afterwards either the partial-failure summary is
set (failureCount positive, catalog kept as the loop left it) or the full
refetch runs, whose own error clearing replaces the success banner and whose
result replaces the catalog. -/
def confirmDelete (repos : List Repository) (userResp : HttpResult UserResponse)
    (del : String → Except (Option String) Unit)
    (refetchUserResp : HttpResult UserResponse)
    (refetchListing : Except (Option String) (List RawRepo)) : BatchResult :=
  let selectedRepos := repos.filter (fun r => r.selected)
  match verifyTokenPermissions userResp with
  | .error m =>
    { repositories := repos, successCount := 0, failureCount := 0,
      error := m, success := "", events := [Event.verifyCall], didRefetch := false }
  | .ok username =>
    let out := processSelected username del selectedRepos (markPending repos) 0 0
    let repos1 := out.1
    let sc := out.2.1
    let fc := out.2.2.1
    let evs := out.2.2.2
    if fc > 0 then
      { repositories := repos1, successCount := sc, failureCount := fc,
        error := "Failed to delete " ++ toString fc ++ " repositories. "
          ++ toString sc ++ " repositories were deleted successfully.",
        success := "", events := Event.verifyCall :: evs, didRefetch := false }
    else
      let f := fetchRepositories refetchUserResp refetchListing
      { repositories := f.1, successCount := sc, failureCount := fc,
        error := f.2, success := "",
        events := Event.verifyCall :: evs ++ [Event.refetchCall], didRefetch := true }

/-- The toggleSelectAll function of App.tsx: every catalog entry is mapped to
a copy with selected set to the checkbox state. -/
def toggleSelectAll (checked : Bool) (repos : List Repository) : List Repository :=
  repos.map (fun repo => { repo with selected := checked })

/-- The toggleRepository function of App.tsx: the entry matching the id gets
its selected flag negated, every other entry is untouched. -/
def toggleRepository (id : Nat) (repos : List Repository) : List Repository :=
  repos.map (fun repo =>
    if repo.id = id then { repo with selected := !repo.selected } else repo)

/-- The per-row selection checkbox of the repository list: its change handler
is toggleRepository, but the input carries disabled when the deleteStatus of
the row is pending, so the handler cannot fire for a pending item (and there
is no row, hence no handler, for an id absent from the catalog). -/
def toggleRepositoryCheckbox (id : Nat) (repos : List Repository) : List Repository :=
  match repos.find? (fun r => r.id = id) with
  | some r => if r.deleteStatus = some .pending then repos else toggleRepository id repos
  | none => repos

/-- Worker for keep-first deduplication: elements already seen (the
accumulator) are skipped, new ones are kept and recorded. -/
def dedupKeepFirstGo : List String → List String → List String
  | [], _ => []
  | a :: as, seen =>
    if a ∈ seen then dedupKeepFirstGo as seen else a :: dedupKeepFirstGo as (a :: seen)

/-- Deduplication keeping first occurrences, the iteration order of a
JavaScript Set built from a list. -/
def dedupKeepFirst (as : List String) : List String :=
  dedupKeepFirstGo as []

/-- The lexicographic order on strings used to model the default (no
comparator) Array.prototype.sort of the language list. -/
def stringRel (a b : String) : Prop :=
  a.data ≤ b.data

instance stringRelDecidable : DecidableRel stringRel :=
  fun a b => inferInstanceAs (Decidable (a.data ≤ b.data))

/-- The language list computed in the uniqueLanguages effect of App.tsx:
Array.from(new Set(...)) over the non-null language tags (keep-first
deduplication) followed by the default lexicographic sort. -/
def computeUniqueLanguages (repos : List Repository) : List String :=
  (dedupKeepFirst ((repos.map (fun r => r.language)).filterMap id)).insertionSort stringRel

/-- The uniqueLanguages effect of App.tsx as a state transition on the
languages state: it runs on every repositories change, but its body is
guarded by repositories.length being positive, so an emptied catalog leaves
the previous languages state in place. -/
def updateLanguages (repos : List Repository) (languages : List String) : List String :=
  if repos.length > 0 then computeUniqueLanguages repos else languages

/-- Formalises the spec phrase: the order in which items were selected by the
user.  A toggle event on an unselected item appends its id to the
chronological selection order; a toggle on a selected item removes it.  The
result is the catalog after the toggles together with that chronological
order. -/
def userSelectionOrder (repos : List Repository) (toggles : List Nat) :
    List Repository × List Nat :=
  toggles.foldl
    (fun s id =>
      let nowSelected :=
        match s.1.find? (fun r => r.id = id) with
        | some r => !r.selected
        | none => false
      (toggleRepository id s.1,
        if nowSelected then s.2 ++ [id] else s.2.filter (fun j => j ≠ id)))
    (repos, [])

/-- Convenience constructor for concrete catalog items used in the concrete
instances below; all optional fields start at their defaults. -/
def mkRepo (id : Nat) (nm : String) : Repository :=
  { id := id, name := nm, html_url := "", isPrivate := false, description := none,
    created_at := 0, updated_at := 0, language := none,
    stargazers_count := 0, forks_count := 0 }

/-- Whether the remote delete call for this item would succeed. -/
def delOk (del : String → Except (Option String) Unit) (r : Repository) : Bool :=
  match del r.name with
  | .ok _ => true
  | .error _ => false

/-- The event trace of the sequential deletion loop over a given item list:
one start immediately followed by its end, per item, in list order. -/
def deletePairEvents (username : String) : List Repository → List Event
  | [] => []
  | r :: rest =>
    Event.deleteStart username r.name :: Event.deleteEnd username r.name ::
      deletePairEvents username rest

/-- Number of delete requests issued within a trace. -/
def startCount (t : List Event) : Nat :=
  t.countP (fun e => match e with | .deleteStart _ _ => true | _ => false)

/-- Number of delete responses received within a trace. -/
def endCount (t : List Event) : Nat :=
  t.countP (fun e => match e with | .deleteEnd _ _ => true | _ => false)

/-- The (owner, repository) pairs of the delete requests of a trace, in
issue order. -/
def deleteCallsOf (t : List Event) : List (String × String) :=
  t.filterMap (fun e => match e with | .deleteStart o n => some (o, n) | _ => none)

/-- The catalog as the deletion loop of confirmDelete leaves it: every
selected item marked pending first, then each selected item resolved in
order by its delete outcome. -/
def loopCatalog (del : String → Except (Option String) Unit)
    (repos : List Repository) : List Repository :=
  (repos.filter (fun r => r.selected)).foldl
    (fun acc r => acc.map (applyStatus del r)) (markPending repos)

theorem processSelected_catalog (username : String)
    (del : String → Except (Option String) Unit) :
    ∀ (sel repos : List Repository) (sc fc : Nat),
      (processSelected username del sel repos sc fc).1
        = sel.foldl (fun acc r => acc.map (applyStatus del r)) repos := by
  intro sel
  induction sel with
  | nil => intro repos sc fc; rfl
  | cons r rest ih =>
    intro repos sc fc
    cases hdel : del r.name <;>
      simp only [processSelected, hdel, List.foldl_cons] <;>
      exact ih _ _ _

theorem processSelected_successCount (username : String)
    (del : String → Except (Option String) Unit) :
    ∀ (sel repos : List Repository) (sc fc : Nat),
      (processSelected username del sel repos sc fc).2.1
        = sc + sel.countP (fun r => delOk del r) := by
  intro sel
  induction sel with
  | nil => intro repos sc fc; simp [processSelected]
  | cons r rest ih =>
    intro repos sc fc
    cases hdel : del r.name <;>
      simp only [processSelected, hdel, List.countP_cons, delOk, ih _ _ _] <;>
      simp [hdel] <;> omega

theorem processSelected_failureCount (username : String)
    (del : String → Except (Option String) Unit) :
    ∀ (sel repos : List Repository) (sc fc : Nat),
      (processSelected username del sel repos sc fc).2.2.1
        = fc + sel.countP (fun r => !delOk del r) := by
  intro sel
  induction sel with
  | nil => intro repos sc fc; simp [processSelected]
  | cons r rest ih =>
    intro repos sc fc
    cases hdel : del r.name <;>
      simp only [processSelected, hdel, List.countP_cons, delOk, ih _ _ _] <;>
      simp [hdel] <;> omega

theorem processSelected_events (username : String)
    (del : String → Except (Option String) Unit) :
    ∀ (sel repos : List Repository) (sc fc : Nat),
      (processSelected username del sel repos sc fc).2.2.2
        = deletePairEvents username sel := by
  intro sel
  induction sel with
  | nil => intro repos sc fc; rfl
  | cons r rest ih =>
    intro repos sc fc
    cases hdel : del r.name <;>
      simp only [processSelected, hdel, deletePairEvents] <;>
      simp [ih _ _ _]

theorem countP_split (l : List Repository) (p : Repository → Bool) :
    l.countP p + l.countP (fun a => !p a) = l.length := by
  induction l with
  | nil => simp
  | cons a l ih => cases h : p a <;> simp [List.countP_cons, h] <;> omega

theorem mem_of_mem_filteredBeforeSort {repos : List Repository} {q : String}
    {f : Filters} {r : Repository} (h : r ∈ filteredBeforeSort repos q f) :
    r ∈ repos := by
  simp only [filteredBeforeSort] at h
  split_ifs at h <;> (try simp only [List.mem_filter] at h) <;> tauto

theorem selected_of_mem_toggleSelectAll {repos : List Repository} {checked : Bool}
    {r : Repository} (hr : r ∈ toggleSelectAll checked repos) : r.selected = checked := by
  rw [toggleSelectAll, List.mem_map] at hr
  obtain ⟨a, _, rfl⟩ := hr
  rfl

/-- A filter configuration that filters nothing: both visibility flags off,
no language filter, sort by name. -/
def cfgNeutral : Filters :=
  { filterPrivate := false, filterPublic := false, sortBy := .name, language := "" }

/-- A GET /user outcome whose credential verification succeeds for the user
u with the delete_repo scope present. -/
def okUserResp : HttpResult UserResponse :=
  .ok { scopes := some "repo, delete_repo", login := "u" }

/-- A concrete item as returned by the remote listing endpoint. -/
def wRaw : RawRepo :=
  { id := 9, name := "n", html_url := "", isPrivate := false, description := none,
    created_at := 0, updated_at := 0, language := none,
    stargazers_count := 0, forks_count := 0 }

instance sortRelTotal (k : SortBy) : IsTotal Repository (sortRel k) := by
  constructor
  cases k <;> intro a b <;> simp only [sortRel] <;> first | exact le_total _ _ | omega

instance sortRelTrans (k : SortBy) : IsTrans Repository (sortRel k) := by
  constructor
  cases k <;> intro a b c hab hbc <;> simp only [sortRel] at * <;>
    first | exact le_trans hab hbc | omega

instance stringRelTotal : IsTotal String stringRel :=
  ⟨fun a b => le_total a.data b.data⟩

instance stringRelTrans : IsTrans String stringRel :=
  ⟨fun _ _ _ hab hbc => le_trans hab hbc⟩

theorem mem_dedupKeepFirstGo : ∀ (as seen : List String) (x : String),
    x ∈ dedupKeepFirstGo as seen ↔ x ∈ as ∧ x ∉ seen := by
  intro as
  induction as with
  | nil => intro seen x; simp [dedupKeepFirstGo]
  | cons a as ih =>
    intro seen x
    by_cases h : a ∈ seen
    · rw [dedupKeepFirstGo, if_pos h, ih]
      simp only [List.mem_cons]
      constructor
      · rintro ⟨hx, hns⟩
        exact ⟨Or.inr hx, hns⟩
      · rintro ⟨rfl | hx2, hns⟩
        · exact absurd h hns
        · exact ⟨hx2, hns⟩
    · rw [dedupKeepFirstGo, if_neg h]
      simp only [List.mem_cons, ih]
      constructor
      · rintro (rfl | ⟨hx, hns⟩)
        · exact ⟨Or.inl rfl, h⟩
        · exact ⟨Or.inr hx, fun hs => hns (Or.inr hs)⟩
      · rintro ⟨rfl | hx, hns⟩
        · exact Or.inl rfl
        · by_cases hxa : x = a
          · exact Or.inl hxa
          · exact Or.inr ⟨hx, fun hc => hc.elim hxa hns⟩

theorem nodup_dedupKeepFirstGo : ∀ (as seen : List String),
    (dedupKeepFirstGo as seen).Nodup := by
  intro as
  induction as with
  | nil => intro seen; simp [dedupKeepFirstGo]
  | cons a as ih =>
    intro seen
    by_cases h : a ∈ seen
    · simpa [dedupKeepFirstGo, h] using ih seen
    · rw [dedupKeepFirstGo, if_neg h, List.nodup_cons]
      refine ⟨fun hmem => ?_, ih _⟩
      rw [mem_dedupKeepFirstGo] at hmem
      exact hmem.2 (List.mem_cons_self a seen)

theorem matchesSearch_iff (q : String) (r : Repository) :
    matchesSearch q r = true ↔
      ((lowerStr q).data <:+: (lowerStr r.name).data ∨
        ∃ d, r.description = some d ∧ (lowerStr q).data <:+: (lowerStr d).data) := by
  cases hd : r.description <;> simp [matchesSearch, stringIncludes, hd]

theorem mem_searchStage (l : List Repository) (q : String) (r : Repository) :
    r ∈ (if q ≠ "" then l.filter (matchesSearch q) else l) ↔
      r ∈ l ∧ (q = "" ∨ matchesSearch q r = true) := by
  by_cases h : q = "" <;> simp [h, List.mem_filter]

theorem mem_visStage (l : List Repository) (f : Filters) (r : Repository) :
    r ∈ (if f.filterPrivate && !f.filterPublic then l.filter (fun x => x.isPrivate)
         else if f.filterPublic && !f.filterPrivate then l.filter (fun x => !x.isPrivate)
         else l) ↔
      r ∈ l ∧ (f.filterPrivate = true ∧ f.filterPublic = false → r.isPrivate = true) ∧
        (f.filterPublic = true ∧ f.filterPrivate = false → r.isPrivate = false) := by
  cases hp : f.filterPrivate <;> cases hq : f.filterPublic <;>
    simp [hp, hq, List.mem_filter]

theorem mem_langStage (l : List Repository) (f : Filters) (r : Repository) :
    r ∈ (if f.language ≠ "" then l.filter (fun x => x.language = some f.language) else l) ↔
      r ∈ l ∧ (f.language ≠ "" → r.language = some f.language) := by
  by_cases h : f.language = "" <;> simp [h, List.mem_filter]

theorem mem_filteredBeforeSort_iff (repos : List Repository) (q : String) (f : Filters)
    (r : Repository) :
    r ∈ filteredBeforeSort repos q f ↔
      (r ∈ repos ∧
       (q = "" ∨ matchesSearch q r = true) ∧
       (f.filterPrivate = true ∧ f.filterPublic = false → r.isPrivate = true) ∧
       (f.filterPublic = true ∧ f.filterPrivate = false → r.isPrivate = false) ∧
       (f.language ≠ "" → r.language = some f.language)) := by
  simp only [filteredBeforeSort]
  rw [mem_langStage, mem_visStage, mem_searchStage]
  tauto

/-- C2: for every catalog in which no item is selected, the batch deletion
entry point handleDeleteSelected fails with the nothing-selected error,
returns the repositories state untouched (so no deleteStatus changes) and
issues zero remote calls. -/
theorem handleDeleteSelected_empty_guard (repos : List Repository)
    (h : ∀ r ∈ repos, r.selected = false) :
    handleDeleteSelected repos
      = (HandleOutcome.nothingSelected "Please select repositories to delete", repos, []) := by
  have hf : repos.filter (fun r => r.selected) = [] :=
    List.filter_eq_nil_iff.mpr (fun a ha => by simp [h a ha])
  simp [handleDeleteSelected, hf]

theorem handleDeleteSelected_empty_guard_witness :
    handleDeleteSelected [mkRepo 1 "repo-one", mkRepo 2 "repo-two"]
      = (HandleOutcome.nothingSelected "Please select repositories to delete",
          [mkRepo 1 "repo-one", mkRepo 2 "repo-two"], []) :=
  handleDeleteSelected_empty_guard _ (by decide)

/-- C3: every batch run re-verifies the credential before any destructive
work (the first event of every run is the verification call), the three
verification failure modes map to errors (unauthenticated status, missing
delete_repo scope, other transport errors), and on any verification failure
the run aborts with the catalog untouched, zero delete calls and no
refetch. -/
theorem confirmDelete_verify_first_and_abort :
    (∀ repos userResp del rfU rfL,
        (confirmDelete repos userResp del rfU rfL).events.head? = some Event.verifyCall) ∧
    (∀ msg, verifyTokenPermissions (HttpResult.err (some 401) msg)
        = Except.error "Invalid token. Please check your token and try again.") ∧
    (∀ login,
        verifyTokenPermissions (HttpResult.ok { scopes := some "repo, gist", login := login })
          = Except.error "Token does not have delete_repo scope. Please generate a new token with the delete_repo permission.") ∧
    (∀ repos userResp del rfU rfL m,
        verifyTokenPermissions userResp = Except.error m →
        confirmDelete repos userResp del rfU rfL
          = { repositories := repos, successCount := 0, failureCount := 0, error := m,
              success := "", events := [Event.verifyCall], didRefetch := false }) := by
  refine ⟨?_, ?_, ?_, ?_⟩
  · intro repos userResp del rfU rfL
    cases hv : verifyTokenPermissions userResp with
    | error m => simp [confirmDelete, hv]
    | ok username =>
      simp only [confirmDelete, hv]
      split <;> simp
  · intro msg
    simp [verifyTokenPermissions]
  · intro login
    rfl
  · intro repos userResp del rfU rfL m hv
    simp [confirmDelete, hv]

theorem confirmDelete_verify_first_and_abort_witness :
    confirmDelete [{ mkRepo 1 "r1" with selected := true }] (HttpResult.err (some 401) none)
        (fun _ => Except.ok ()) (HttpResult.err (some 401) none) (Except.ok [])
      = { repositories := [{ mkRepo 1 "r1" with selected := true }], successCount := 0,
          failureCount := 0, error := "Invalid token. Please check your token and try again.",
          success := "", events := [Event.verifyCall], didRefetch := false } :=
  confirmDelete_verify_first_and_abort.2.2.2 _ _ _ _ _ _ (by rfl)

/-- C8: toggleSelectAll sets the selected flag of every catalog entry to the
checkbox state and changes no other field of any entry; every item of the
catalog, including items the active filter hides, reports the new selected
state, and so does every item of any derived filtered view. -/
theorem toggleSelectAll_catalog_wide :
    ∀ (repos : List Repository) (checked : Bool),
      (toggleSelectAll checked repos).length = repos.length ∧
      (∀ (i : Nat) (r r' : Repository),
        repos[i]? = some r → (toggleSelectAll checked repos)[i]? = some r' →
        r'.selected = checked ∧ r'.id = r.id ∧ r'.name = r.name ∧ r'.html_url = r.html_url ∧
        r'.isPrivate = r.isPrivate ∧ r'.description = r.description ∧
        r'.created_at = r.created_at ∧ r'.updated_at = r.updated_at ∧
        r'.language = r.language ∧ r'.stargazers_count = r.stargazers_count ∧
        r'.forks_count = r.forks_count ∧ r'.deleteStatus = r.deleteStatus ∧
        r'.errorMessage = r.errorMessage) ∧
      (∀ r ∈ toggleSelectAll checked repos, r.selected = checked) ∧
      (∀ searchTerm filters r,
        r ∈ filterRepositories (toggleSelectAll checked repos) searchTerm filters →
        r.selected = checked) := by
  intro repos checked
  refine ⟨by simp [toggleSelectAll], ?_, fun r hr => selected_of_mem_toggleSelectAll hr, ?_⟩
  · intro i r r' hr hr'
    rw [toggleSelectAll, List.getElem?_map, hr, Option.map_some'] at hr'
    cases hr'
    simp
  · intro searchTerm filters r hr
    have h1 : r ∈ filteredBeforeSort (toggleSelectAll checked repos) searchTerm filters := by
      simpa [filterRepositories, List.mem_insertionSort] using hr
    exact selected_of_mem_toggleSelectAll (mem_of_mem_filteredBeforeSort h1)

theorem toggleSelectAll_catalog_wide_witness :
    ({ mkRepo 1 "a" with selected := true } : Repository) ∈
        filterRepositories (toggleSelectAll true [mkRepo 1 "a"]) "" cfgNeutral ∧
    ({ mkRepo 1 "a" with selected := true } : Repository).selected = true :=
  ⟨by decide,
    (toggleSelectAll_catalog_wide [mkRepo 1 "a"] true).2.2.2 "" cfgNeutral _ (by decide)⟩

/-- C9: through the list-row checkbox, toggling an item flips exactly the
selected flag of the entry with that id and leaves every other entry
untouched; when that entry has a pending deleteStatus the checkbox is
disabled, so the toggle is a no-op and a pending item cannot have its
selection changed. -/
theorem toggleRepositoryCheckbox_spec :
    ∀ (repos : List Repository) (id : Nat),
      ((repos.map (fun r => r.id)).Nodup) →
      ((toggleRepositoryCheckbox id repos).length = repos.length ∧
       (∀ r ∈ repos, r.id = id → r.deleteStatus = some DeleteStatus.pending →
          toggleRepositoryCheckbox id repos = repos) ∧
       (∀ (i : Nat) (r : Repository), repos[i]? = some r → r.id ≠ id →
          (toggleRepositoryCheckbox id repos)[i]? = some r) ∧
       (∀ (i : Nat) (r : Repository), repos[i]? = some r → r.id = id →
          r.deleteStatus ≠ some DeleteStatus.pending →
          (toggleRepositoryCheckbox id repos)[i]?
            = some { r with selected := !r.selected })) := by
  intro repos id hnd
  refine ⟨?_, ?_, ?_, ?_⟩
  · rw [toggleRepositoryCheckbox]
    cases hfind : repos.find? (fun x => x.id = id) with
    | none => rfl
    | some r0 =>
      by_cases hp : r0.deleteStatus = some DeleteStatus.pending
      · simp [hp]
      · simp [hp, toggleRepository]
  · intro r hr hid hpend
    have hs : (repos.find? (fun x => x.id = id)).isSome :=
      List.find?_isSome.mpr ⟨r, hr, by simp [hid]⟩
    obtain ⟨r0, hr0⟩ := Option.isSome_iff_exists.mp hs
    have hmem := List.mem_of_find?_eq_some hr0
    have hp : r0.id = id := by simpa using List.find?_some hr0
    have he : r0 = r := List.inj_on_of_nodup_map hnd hmem hr (by rw [hp, hid])
    subst he
    simp [toggleRepositoryCheckbox, hr0, hpend]
  · intro i r hi hne
    cases hfind : repos.find? (fun x => x.id = id) with
    | none => simp [toggleRepositoryCheckbox, hfind, hi]
    | some r0 =>
      by_cases hp : r0.deleteStatus = some DeleteStatus.pending
      · simp [toggleRepositoryCheckbox, hfind, hp, hi]
      · simp only [toggleRepositoryCheckbox, hfind, if_neg hp, toggleRepository,
          List.getElem?_map, hi, Option.map_some']
        simp [hne]
  · intro i r hi hid hpend
    have hr : r ∈ repos := List.getElem?_mem hi
    have hs : (repos.find? (fun x => x.id = id)).isSome :=
      List.find?_isSome.mpr ⟨r, hr, by simp [hid]⟩
    obtain ⟨r0, hr0⟩ := Option.isSome_iff_exists.mp hs
    have hmem := List.mem_of_find?_eq_some hr0
    have hp : r0.id = id := by simpa using List.find?_some hr0
    have he : r0 = r := List.inj_on_of_nodup_map hnd hmem hr (by rw [hp, hid])
    subst he
    simp only [toggleRepositoryCheckbox, hr0, if_neg hpend, toggleRepository,
      List.getElem?_map, hi, Option.map_some']
    simp [hid]

theorem toggleRepositoryCheckbox_spec_witness :
    (toggleRepositoryCheckbox 2
        [{ mkRepo 1 "p" with deleteStatus := some .pending }, mkRepo 2 "q"])[1]?
      = some { mkRepo 2 "q" with selected := !(mkRepo 2 "q").selected } :=
  (toggleRepositoryCheckbox_spec
      [{ mkRepo 1 "p" with deleteStatus := some .pending }, mkRepo 2 "q"] 2
      (by decide)).2.2.2 1 (mkRepo 2 "q") (by decide) (by decide) (by decide)

/-- C10: every successful fetch replaces the catalog with the response items
spread with selected set to false and no deleteStatus, so each successful
fetch clears all selection and per-item statuses; in particular after a
batch in which every delete call succeeded, the confirmDelete refetch leaves
only items with cleared selection and status. -/
theorem fetchRepositories_resets_state :
    (∀ userResp listing raws username,
        verifyTokenPermissions userResp = Except.ok username →
        listing = Except.ok raws →
        (fetchRepositories userResp listing).1 = raws.map rawToRepository ∧
        ∀ r ∈ (fetchRepositories userResp listing).1,
          r.selected = false ∧ r.deleteStatus = none) ∧
    (∀ repos userResp del rfU rfL username,
        verifyTokenPermissions userResp = Except.ok username →
        (∀ r ∈ repos.filter (fun x => x.selected), delOk del r = true) →
        ∀ r ∈ (confirmDelete repos userResp del rfU rfL).repositories,
          r.selected = false ∧ r.deleteStatus = none) := by
  refine ⟨?_, ?_⟩
  · intro userResp listing raws username hv hl
    subst hl
    refine ⟨by simp [fetchRepositories, hv], ?_⟩
    intro r hr
    simp only [fetchRepositories, hv] at hr
    rw [List.mem_map] at hr
    obtain ⟨a, _, rfl⟩ := hr
    exact ⟨rfl, rfl⟩
  · intro repos userResp del rfU rfL username hv hall r hr
    have hfc : (repos.filter (fun x => x.selected)).countP (fun x => !delOk del x) = 0 := by
      rw [List.countP_eq_zero]
      intro a ha
      simp [hall a ha]
    simp only [confirmDelete, hv] at hr
    rw [processSelected_failureCount username del _ _ 0 0, hfc] at hr
    simp only [Nat.zero_add, gt_iff_lt, Nat.lt_irrefl, if_false] at hr
    cases hv2 : verifyTokenPermissions rfU with
    | error m => simp [fetchRepositories, hv2] at hr
    | ok u2 =>
      cases rfL with
      | error m => simp [fetchRepositories, hv2] at hr
      | ok raws =>
        simp only [fetchRepositories, hv2] at hr
        rw [List.mem_map] at hr
        obtain ⟨a, _, rfl⟩ := hr
        exact ⟨rfl, rfl⟩

theorem fetchRepositories_resets_state_witness :
    (rawToRepository wRaw ∈
        (confirmDelete [{ mkRepo 1 "r1" with selected := true }] okUserResp
          (fun _ => Except.ok ()) okUserResp (Except.ok [wRaw])).repositories) ∧
    (rawToRepository wRaw).selected = false ∧ (rawToRepository wRaw).deleteStatus = none :=
  ⟨by decide,
    fetchRepositories_resets_state.2 [{ mkRepo 1 "r1" with selected := true }] okUserResp
      (fun _ => Except.ok ()) okUserResp (Except.ok [wRaw]) "u" (by rfl) (by decide) _
      (by decide)⟩

/-- A public item without the query term anywhere. -/
def descRepoA : Repository :=
  { mkRepo 1 "alpha" with description := some "plain text" }

/-- An item whose description, but not name, contains the query term. -/
def descRepoB : Repository :=
  { mkRepo 2 "beta" with description := some "has a needle inside" }

/-- A configuration whose visibility filter keeps only private items. -/
def privOnlyCfg : Filters :=
  { filterPrivate := true, filterPublic := false, sortBy := .name, language := "" }

/-- C5 counterexample: the claim quantifies over every filter configuration
and makes inclusion depend on the query alone, so with the empty query it
requires every catalog item to be included; under a private-only visibility
configuration the engine nevertheless excludes a public item. -/
theorem filterRepositories_not_query_only :
    descRepoA ∈ [descRepoA] ∧
    filterRepositories [descRepoA] "" privOnlyCfg = [] := by
  exact ⟨by decide, by decide⟩

/-- C5 amended: for every catalog, query and filter configuration, the
engine includes an item exactly when the item passes the visibility and
language filters and the query matching rule holds: the query is empty, or
is a case-insensitive substring of the name or of the description (a null
description never matches); under a configuration that filters neither
visibility nor language, inclusion is exactly the matching rule, and a query
present only in one item description yields exactly that item. -/
theorem filterRepositories_matching_rule :
    (∀ (repos : List Repository) (searchTerm : String) (f : Filters) (r : Repository),
        r ∈ filterRepositories repos searchTerm f ↔
          (r ∈ repos ∧
           (searchTerm = "" ∨
             (lowerStr searchTerm).data <:+: (lowerStr r.name).data ∨
             ∃ d, r.description = some d ∧
               (lowerStr searchTerm).data <:+: (lowerStr d).data) ∧
           (f.filterPrivate = true ∧ f.filterPublic = false → r.isPrivate = true) ∧
           (f.filterPublic = true ∧ f.filterPrivate = false → r.isPrivate = false) ∧
           (f.language ≠ "" → r.language = some f.language))) ∧
    filterRepositories [descRepoA, descRepoB] "Needle" cfgNeutral = [descRepoB] := by
  constructor
  · intro repos q f r
    rw [filterRepositories, List.mem_insertionSort, mem_filteredBeforeSort_iff]
    simp only [matchesSearch_iff]
  · decide

/-- Catalog with names out of order, for the sort examples. -/
def catNames : List Repository :=
  [mkRepo 1 "b", mkRepo 2 "a", mkRepo 3 "c"]

/-- Catalog with first popularity counters 3, 1, 2 in catalog order. -/
def catStars : List Repository :=
  [{ mkRepo 1 "x" with stargazers_count := 3 },
   { mkRepo 2 "y" with stargazers_count := 1 },
   { mkRepo 3 "z" with stargazers_count := 2 }]

/-- Sort configuration on the first popularity counter. -/
def cfgByStars : Filters :=
  { filterPrivate := false, filterPublic := false, sortBy := .stars, language := "" }

/-- Sort configuration on the last-modified timestamp. -/
def cfgByUpdated : Filters :=
  { filterPrivate := false, filterPublic := false, sortBy := .updated, language := "" }

/-- Two items tying on the last-modified key, in catalog order. -/
def tieA : Repository := { mkRepo 1 "t1" with updated_at := 5 }

/-- Second element of the tie pair. -/
def tieB : Repository := { mkRepo 2 "t2" with updated_at := 5 }

/-- C6: the sort of the filter engine is applied after matching and
filtering (its output is a permutation of the filtered-but-unsorted list),
its output is sorted under the comparator of the chosen key, it is stable
(any pair in filtered order related by the comparator, in particular any
tie, keeps its relative order), the five keys order as specified, and the
two concrete examples sort as claimed. -/
theorem filterRepositories_sort_spec :
    (∀ (repos : List Repository) (searchTerm : String) (f : Filters),
        List.Perm (filterRepositories repos searchTerm f)
          (filteredBeforeSort repos searchTerm f)) ∧
    (∀ (repos : List Repository) (searchTerm : String) (f : Filters),
        List.Sorted (sortRel f.sortBy) (filterRepositories repos searchTerm f)) ∧
    (∀ (repos : List Repository) (searchTerm : String) (f : Filters) (a b : Repository),
        sortRel f.sortBy a b →
        List.Sublist [a, b] (filteredBeforeSort repos searchTerm f) →
        List.Sublist [a, b] (filterRepositories repos searchTerm f)) ∧
    (∀ a b : Repository,
        (sortRel .name a b ↔ a.name.data ≤ b.name.data) ∧
        (sortRel .created a b ↔ b.created_at ≤ a.created_at) ∧
        (sortRel .updated a b ↔ b.updated_at ≤ a.updated_at) ∧
        (sortRel .stars a b ↔ b.stargazers_count ≤ a.stargazers_count) ∧
        (sortRel .forks a b ↔ b.forks_count ≤ a.forks_count)) ∧
    (filterRepositories catNames "" cfgNeutral).map (fun r => r.name) = ["a", "b", "c"] ∧
    (filterRepositories catStars "" cfgByStars).map (fun r => r.stargazers_count)
      = [3, 2, 1] := by
  refine ⟨?_, ?_, ?_, ?_, by decide, by decide⟩
  · intro repos searchTerm f
    exact List.perm_insertionSort _ _
  · intro repos searchTerm f
    exact List.sorted_insertionSort _ _
  · intro repos searchTerm f a b hab hsub
    exact List.pair_sublist_insertionSort hab hsub
  · intro a b
    exact ⟨Iff.rfl, Iff.rfl, Iff.rfl, Iff.rfl, Iff.rfl⟩

theorem filterRepositories_sort_spec_witness :
    sortRel cfgByUpdated.sortBy tieA tieB ∧
    List.Sublist [tieA, tieB] (filterRepositories [tieA, tieB] "" cfgByUpdated) :=
  ⟨by decide,
    filterRepositories_sort_spec.2.2.1 [tieA, tieB] "" cfgByUpdated tieA tieB
      (by decide) (by decide)⟩

/-- An item carrying the Go language tag. -/
def goRepo : Repository := { mkRepo 5 "g" with language := some "Go" }

/-- C7 counterexample: the claim requires the languages list to track every
catalog change including one that empties it; the effect body is guarded by
the catalog being nonempty, so emptying the catalog (as a failed fetch does)
leaves the stale previous list instead of the empty derived set. -/
theorem updateLanguages_stale_on_empty :
    updateLanguages [] (updateLanguages [goRepo] []) = ["Go"] ∧
    computeUniqueLanguages ([] : List Repository) = [] ∧
    (["Go"] : List String) ≠ ([] : List String) :=
  ⟨by decide, by decide, by decide⟩

/-- C7 amended: after every catalog change that leaves the catalog nonempty
the languages state equals the derived list over the full catalog, which is
lexicographically sorted, duplicate-free, and contains exactly the non-null
language tags of the full catalog; a change to an empty catalog leaves the
previous languages state in place. -/
theorem updateLanguages_spec :
    ∀ (repos : List Repository) (languages : List String),
      (repos ≠ [] →
        updateLanguages repos languages = computeUniqueLanguages repos ∧
        List.Sorted stringRel (updateLanguages repos languages) ∧
        (updateLanguages repos languages).Nodup ∧
        (∀ s, s ∈ updateLanguages repos languages ↔
          some s ∈ repos.map (fun r => r.language))) ∧
      (repos = [] → updateLanguages repos languages = languages) := by
  intro repos languages
  constructor
  · intro hne
    have hlen : repos.length > 0 := by
      cases repos with
      | nil => exact absurd rfl hne
      | cons a l => simp
    have hup : updateLanguages repos languages = computeUniqueLanguages repos := by
      simp [updateLanguages, hlen]
    refine ⟨hup, ?_, ?_, ?_⟩
    · rw [hup]
      exact List.sorted_insertionSort _ _
    · rw [hup, computeUniqueLanguages, dedupKeepFirst]
      exact ((List.perm_insertionSort _ _).nodup_iff).mpr (nodup_dedupKeepFirstGo _ _)
    · intro s
      rw [hup, computeUniqueLanguages, dedupKeepFirst, List.mem_insertionSort,
        mem_dedupKeepFirstGo]
      simp [List.mem_filterMap]
  · intro he
    subst he
    rfl

theorem updateLanguages_spec_witness :
    updateLanguages [goRepo] [] = computeUniqueLanguages [goRepo] ∧
    computeUniqueLanguages [goRepo] = ["Go"] :=
  ⟨((updateLanguages_spec [goRepo] []).1 (by decide)).1, by decide⟩

theorem foldl_map_comm (del : String → Except (Option String) Unit) :
    ∀ (sel repos : List Repository),
      sel.foldl (fun acc r => acc.map (applyStatus del r)) repos
        = repos.map (fun e => sel.foldl (fun e r => applyStatus del r e) e) := by
  intro sel
  induction sel with
  | nil => intro repos; simp
  | cons a rest ih =>
    intro repos
    simp only [List.foldl_cons]
    rw [ih, List.map_map]
    rfl

theorem applyStatus_id (del : String → Except (Option String) Unit) (r e : Repository) :
    (applyStatus del r e).id = e.id := by
  unfold applyStatus
  split
  · split <;> rfl
  · rfl

theorem fold_applyStatus_id (del : String → Except (Option String) Unit) :
    ∀ (sel : List Repository) (e : Repository),
      (sel.foldl (fun e r => applyStatus del r e) e).id = e.id := by
  intro sel
  induction sel with
  | nil => intro e; rfl
  | cons a rest ih =>
    intro e
    simp only [List.foldl_cons]
    rw [ih, applyStatus_id]

theorem fold_applyStatus_of_ne (del : String → Except (Option String) Unit) :
    ∀ (sel : List Repository) (e : Repository),
      (∀ r ∈ sel, r.id ≠ e.id) →
      sel.foldl (fun e r => applyStatus del r e) e = e := by
  intro sel
  induction sel with
  | nil => intro e _; rfl
  | cons a rest ih =>
    intro e h
    have ha : applyStatus del a e = e := by
      unfold applyStatus
      rw [if_neg]
      intro hc
      exact h a (List.mem_cons_self a rest) hc.symm
    simp only [List.foldl_cons, ha]
    exact ih e (fun r hr => h r (List.mem_cons_of_mem a hr))

theorem fold_applyStatus_unique (del : String → Except (Option String) Unit) :
    ∀ (sel : List Repository) (r e : Repository),
      ((sel.map (fun x => x.id)).Nodup) → r ∈ sel → e.id = r.id →
      sel.foldl (fun e r => applyStatus del r e) e = applyStatus del r e := by
  intro sel
  induction sel with
  | nil => intro r e _ hr _; cases hr
  | cons a rest ih =>
    intro r e hnd hr hid
    rw [List.map_cons, List.nodup_cons] at hnd
    rcases List.mem_cons.mp hr with rfl | hr2
    · simp only [List.foldl_cons]
      apply fold_applyStatus_of_ne
      intro x hx hcx
      apply hnd.1
      rw [List.mem_map]
      refine ⟨x, hx, ?_⟩
      rw [hcx, applyStatus_id, hid]
    · have hane : e.id ≠ a.id := by
        intro hc
        apply hnd.1
        rw [List.mem_map]
        exact ⟨r, hr2, by rw [← hid, hc]⟩
      have hae : applyStatus del a e = e := by
        unfold applyStatus
        rw [if_neg hane]
      simp only [List.foldl_cons, hae]
      exact ih r e hnd.2 hr2 hid

theorem loopCatalog_status (del : String → Except (Option String) Unit)
    (repos : List Repository) (hnd : (repos.map (fun x => x.id)).Nodup) :
    ∀ r ∈ repos.filter (fun x => x.selected), ∀ e ∈ loopCatalog del repos, e.id = r.id →
      (∀ u, del r.name = Except.ok u → e.deleteStatus = some DeleteStatus.success) ∧
      (∀ m, del r.name = Except.error m →
        e.deleteStatus = some DeleteStatus.error ∧
        e.errorMessage = some (messageOr m "Unknown error occurred")) := by
  intro r hr e he hid
  rw [loopCatalog, foldl_map_comm, List.mem_map] at he
  obtain ⟨e0, he0, rfl⟩ := he
  have hid0 : e0.id = r.id := by
    rw [← hid, fold_applyStatus_id]
  have hselnd : ((repos.filter (fun x => x.selected)).map (fun x => x.id)).Nodup :=
    List.Nodup.sublist ((List.filter_sublist repos).map (fun x => x.id)) hnd
  rw [fold_applyStatus_unique del _ r e0 hselnd hr hid0]
  constructor
  · intro u hdel
    simp [applyStatus, hid0, hdel]
  · intro m hdel
    simp [applyStatus, hid0, hdel]

theorem count_refetch_deletePairEvents (u : String) :
    ∀ sel, (deletePairEvents u sel).count Event.refetchCall = 0 := by
  intro sel
  induction sel with
  | nil => rfl
  | cons r rest ih => simp [deletePairEvents, List.count_cons, ih]

/-- Catalog of two selected items for the partial-failure instance. -/
def wRepos4 : List Repository :=
  [{ mkRepo 1 "ra" with selected := true }, { mkRepo 2 "rb" with selected := true }]

/-- Delete outcomes failing exactly on the item named rb, with a remote
message. -/
def wDel : String → Except (Option String) Unit :=
  fun n => if n = "rb" then .error (some "boom") else .ok ()

/-- C4: in a batch run over the selected items with failure set F (the
selected items whose delete call fails), failures are isolated: the run ends
with successCount equal to the number of selected items minus the size of F
and failureCount equal to the size of F; after the loop every selected item
whose call succeeded carries status success and every item of F carries
status error with the remote message (or the generic fallback) preserved;
exactly one refetch happens when F is empty and none otherwise, in which
case the catalog is left exactly as the loop produced it. -/
theorem confirmDelete_partial_failure :
    ∀ (repos : List Repository) (userResp : HttpResult UserResponse)
      (del : String → Except (Option String) Unit)
      (rfU : HttpResult UserResponse) (rfL : Except (Option String) (List RawRepo))
      (username : String),
      ((repos.map (fun x => x.id)).Nodup) →
      verifyTokenPermissions userResp = Except.ok username →
      ((confirmDelete repos userResp del rfU rfL).successCount
          = (repos.filter (fun x => x.selected)).length
            - ((repos.filter (fun x => x.selected)).filter (fun x => !delOk del x)).length ∧
       (confirmDelete repos userResp del rfU rfL).failureCount
          = ((repos.filter (fun x => x.selected)).filter (fun x => !delOk del x)).length ∧
       (confirmDelete repos userResp del rfU rfL).events.count Event.refetchCall
          = (if ((repos.filter (fun x => x.selected)).filter
                  (fun x => !delOk del x)).length = 0
             then 1 else 0) ∧
       (∀ r ∈ repos.filter (fun x => x.selected),
          ∀ e ∈ loopCatalog del repos, e.id = r.id →
          (∀ u, del r.name = Except.ok u → e.deleteStatus = some DeleteStatus.success) ∧
          (∀ m, del r.name = Except.error m →
            e.deleteStatus = some DeleteStatus.error ∧
            e.errorMessage = some (messageOr m "Unknown error occurred"))) ∧
       (((repos.filter (fun x => x.selected)).filter (fun x => !delOk del x)).length ≠ 0 →
          (confirmDelete repos userResp del rfU rfL).repositories
            = loopCatalog del repos)) := by
  intro repos userResp del rfU rfL username hnd hv
  have hsplit := countP_split (repos.filter (fun x => x.selected)) (fun x => delOk del x)
  have hflen : ((repos.filter (fun x => x.selected)).filter (fun x => !delOk del x)).length
      = (repos.filter (fun x => x.selected)).countP (fun x => !delOk del x) :=
    (List.countP_eq_length_filter _ _).symm
  refine ⟨?_, ?_, ?_, loopCatalog_status del repos hnd, ?_⟩
  · have hsc : (confirmDelete repos userResp del rfU rfL).successCount
        = (repos.filter (fun x => x.selected)).countP (fun x => delOk del x) := by
      simp only [confirmDelete, hv]
      split <;> simp [processSelected_successCount]
    rw [hsc, hflen]
    omega
  · have hfc : (confirmDelete repos userResp del rfU rfL).failureCount
        = (repos.filter (fun x => x.selected)).countP (fun x => !delOk del x) := by
      simp only [confirmDelete, hv]
      split <;> simp [processSelected_failureCount]
    rw [hfc, hflen]
  · rw [hflen]
    simp only [confirmDelete, hv]
    rw [processSelected_failureCount username del _ _ 0 0]
    by_cases hz : (repos.filter (fun x => x.selected)).countP (fun x => !delOk del x) = 0
    · rw [if_neg (by omega), if_pos hz]
      simp [processSelected_events, List.count_cons, List.count_append,
        count_refetch_deletePairEvents]
    · rw [if_pos (by omega), if_neg hz]
      simp [processSelected_events, List.count_cons, count_refetch_deletePairEvents]
  · intro hne
    simp only [confirmDelete, hv]
    rw [processSelected_failureCount username del _ _ 0 0]
    rw [if_pos (by omega)]
    rw [processSelected_catalog, loopCatalog]

theorem confirmDelete_partial_failure_witness :
    (confirmDelete wRepos4 okUserResp wDel okUserResp (Except.ok [])).successCount = 1 ∧
    (confirmDelete wRepos4 okUserResp wDel okUserResp (Except.ok [])).failureCount = 1 ∧
    (confirmDelete wRepos4 okUserResp wDel okUserResp
        (Except.ok [])).events.count Event.refetchCall = 0 :=
  have h := confirmDelete_partial_failure wRepos4 okUserResp wDel okUserResp
    (Except.ok []) "u" (by decide) (by rfl)
  ⟨h.1.trans (by decide), h.2.1.trans (by decide), (h.2.2.1).trans (by decide)⟩

theorem startCount_endCount_deletePairEvents (u : String) :
    ∀ sel, startCount (deletePairEvents u sel) = endCount (deletePairEvents u sel) := by
  intro sel
  induction sel with
  | nil => rfl
  | cons r rest ih =>
    simp [deletePairEvents, startCount, endCount, List.countP_cons] at *
    omega

theorem seq_deletePairEvents (u : String) :
    ∀ (sel : List Repository) (p : List Event), p <+: deletePairEvents u sel →
      startCount p ≤ endCount p + 1 := by
  intro sel
  induction sel with
  | nil =>
    intro p hp
    simp only [deletePairEvents] at hp
    rw [List.prefix_nil] at hp
    subst hp
    simp [startCount, endCount]
  | cons r rest ih =>
    intro p hp
    simp only [deletePairEvents] at hp
    rcases p with _ | ⟨e1, p1⟩
    · simp [startCount, endCount]
    · rw [List.cons_prefix_cons] at hp
      obtain ⟨rfl, hp1⟩ := hp
      rcases p1 with _ | ⟨e2, p2⟩
      · simp [startCount, endCount, List.countP_cons]
      · rw [List.cons_prefix_cons] at hp1
        obtain ⟨rfl, hp2⟩ := hp1
        have := ih p2 hp2
        simp only [startCount, endCount, List.countP_cons] at *
        omega

theorem deleteCallsOf_deletePairEvents (u : String) :
    ∀ sel, deleteCallsOf (deletePairEvents u sel) = sel.map (fun r => (u, r.name)) := by
  intro sel
  induction sel with
  | nil => rfl
  | cons r rest ih => simp [deletePairEvents, deleteCallsOf, List.filterMap_cons] at *; exact ih

theorem deleteCallsOf_verify_cons (t : List Event) :
    deleteCallsOf (Event.verifyCall :: t) = deleteCallsOf t := by
  simp [deleteCallsOf]

theorem deleteCallsOf_append_refetch (t : List Event) :
    deleteCallsOf (t ++ [Event.refetchCall]) = deleteCallsOf t := by
  simp [deleteCallsOf, List.filterMap_append]

theorem prefix_append_singleton {p l : List Event} {x : Event} (hp : p <+: l ++ [x]) :
    p <+: l ∨ p = l ++ [x] := by
  by_cases hlen : p.length ≤ l.length
  · exact Or.inl (List.prefix_of_prefix_length_le hp (List.prefix_append l [x]) hlen)
  · right
    have h2 := hp.length_le
    simp only [List.length_append, List.length_cons, List.length_nil] at h2
    exact hp.sublist.eq_of_length (by simp; omega)

/-- Catalog for the selection-order instance; both items start unselected. -/
def orderCatalog : List Repository := [mkRepo 1 "r1", mkRepo 2 "r2"]

/-- Delete outcomes in which every call succeeds. -/
def allOkDel : String → Except (Option String) Unit := fun _ => .ok ()

/-- Catalog with both items already selected. -/
def selCatalog : List Repository :=
  [{ mkRepo 1 "r1" with selected := true }, { mkRepo 2 "r2" with selected := true }]

/-- C1 counterexample: with both items toggled in the order second-then-first
the chronological selection order is [2, 1] (names r2 then r1), but the run
issues its delete calls as r1 then r2 — the order of the repositories array
(catalog order), which the claim explicitly excludes. -/
theorem confirmDelete_not_selection_order :
    (userSelectionOrder orderCatalog [2, 1]).2 = [2, 1] ∧
    ((userSelectionOrder orderCatalog [2, 1]).2.filterMap
        (fun i => ((userSelectionOrder orderCatalog [2, 1]).1.find?
          (fun r => r.id = i)).map (fun r => ("u", r.name))))
      = [("u", "r2"), ("u", "r1")] ∧
    deleteCallsOf (confirmDelete (userSelectionOrder orderCatalog [2, 1]).1 okUserResp
        allOkDel okUserResp (Except.ok [])).events
      = [("u", "r1"), ("u", "r2")] ∧
    ([("u", "r1"), ("u", "r2")] : List (String × String)) ≠ [("u", "r2"), ("u", "r1")] :=
  ⟨by decide, by decide, by decide, by decide⟩

/-- C1 amended: after a successful credential re-verification the run issues
its destructive calls strictly sequentially — in every prefix of the event
trace at most one delete call is unanswered, so no two calls are ever in
flight — and it visits exactly the selected items, scoped to the verified
principal, in the order in which they appear in the repositories array
(catalog order), not in the chronological order of selection. -/
theorem confirmDelete_sequential_catalog_order :
    ∀ (repos : List Repository) (userResp : HttpResult UserResponse)
      (del : String → Except (Option String) Unit)
      (rfU : HttpResult UserResponse) (rfL : Except (Option String) (List RawRepo))
      (username : String),
      verifyTokenPermissions userResp = Except.ok username →
      ((∀ p, p <+: (confirmDelete repos userResp del rfU rfL).events →
          startCount p ≤ endCount p + 1) ∧
       deleteCallsOf (confirmDelete repos userResp del rfU rfL).events
          = (repos.filter (fun x => x.selected)).map (fun r => (username, r.name))) := by
  intro repos userResp del rfU rfL username hv
  obtain ⟨tail, hev, htail⟩ :
      ∃ tail, (confirmDelete repos userResp del rfU rfL).events
        = Event.verifyCall ::
            deletePairEvents username (repos.filter (fun x => x.selected)) ++ tail ∧
          (tail = [] ∨ tail = [Event.refetchCall]) := by
    simp only [confirmDelete, hv]
    split
    · exact ⟨[], by simp [processSelected_events], Or.inl rfl⟩
    · exact ⟨[Event.refetchCall], by simp [processSelected_events], Or.inr rfl⟩
  constructor
  · intro p hp
    rw [hev, List.cons_append] at hp
    rcases p with _ | ⟨e1, p1⟩
    · simp [startCount, endCount]
    · rw [List.cons_prefix_cons] at hp
      obtain ⟨rfl, hp1⟩ := hp
      have key : startCount p1 ≤ endCount p1 + 1 := by
        rcases htail with rfl | rfl
        · rw [List.append_nil] at hp1
          exact seq_deletePairEvents username _ p1 hp1
        · rcases prefix_append_singleton hp1 with h | rfl
          · exact seq_deletePairEvents username _ p1 h
          · have hb := startCount_endCount_deletePairEvents username
              (repos.filter (fun x => x.selected))
            simp only [startCount, endCount, List.countP_append, List.countP_cons,
              List.countP_nil] at *
            omega
      simpa [startCount, endCount, List.countP_cons] using key
  · rw [hev, List.cons_append]
    rcases htail with rfl | rfl
    · rw [List.append_nil, deleteCallsOf_verify_cons, deleteCallsOf_deletePairEvents]
    · rw [deleteCallsOf_verify_cons, deleteCallsOf_append_refetch,
        deleteCallsOf_deletePairEvents]

theorem confirmDelete_sequential_catalog_order_witness :
    deleteCallsOf (confirmDelete selCatalog okUserResp allOkDel okUserResp
        (Except.ok [])).events = [("u", "r1"), ("u", "r2")] ∧
    startCount [Event.verifyCall, Event.deleteStart "u" "r1"]
      ≤ endCount [Event.verifyCall, Event.deleteStart "u" "r1"] + 1 :=
  have h := confirmDelete_sequential_catalog_order selCatalog okUserResp allOkDel
    okUserResp (Except.ok []) "u" (by rfl)
  ⟨h.2.trans (by decide),
    h.1 [Event.verifyCall, Event.deleteStart "u" "r1"] (by decide)⟩

theorem filterRepositories_matching_rule_witness :
    descRepoB ∈ filterRepositories [descRepoA, descRepoB] "Needle" cfgNeutral :=
  (filterRepositories_matching_rule.1 [descRepoA, descRepoB] "Needle" cfgNeutral
      descRepoB).mpr
    ⟨by decide, Or.inr (Or.inr ⟨"has a needle inside", by decide, by decide⟩),
      by decide, by decide, by decide⟩
